import Mathlib

/-!
Verification of the `table` Go package (simple table formatting for
command-line applications) against its natural-language specification.

Shallow embedding conventions:
* A Go `string` is a list of bytes (`GoStr := List Nat`, each entry < 256).
  Go strings may hold arbitrary bytes, including invalid UTF-8 after byte
  slicing, so byte lists rather than Lean strings are used.
* `len([]rune(s))` is `runeLen`, which decodes UTF-8 exactly as Go's
  `unicode/utf8` package does (every invalid byte counts as one error rune).
* Go runtime panics (nil-pointer dereference, out-of-range slice bounds)
  are modelled by `Option`: `none` means the operation panics.
* Go `float32`/`float64` values are modelled as exact rationals given by a
  numerator and denominator; `strconv.FormatFloat(v, 'f', p, _)` becomes
  `formatFloatGo`: for `p ≥ 0` fixed-point rendering with `p` fractional
  digits and round-half-to-even, and for any negative `p` (strconv's
  `shortest := prec < 0`) shortest formatting, modelled as the smallest
  fractional digit count rendering the rational exactly; both agree with
  Go on the values used here.
* The output sink (`io.Writer`) is modelled as a byte accumulator that
  never fails, so `Print` returns the produced bytes (or `none` on panic).
* `sort.Sort` from the Go standard library is a comparison sort over the
  table's `Less` method; it is modelled as insertion sort over the same
  comparator (`sort.Sort` gives no further guarantees used here).
-/

set_option autoImplicit false

/-- Bytes of a Go string. -/
abbrev GoStr := List Nat

/-- A user-defined formatting function (`FormatFunc` in the source). -/
abbrev FmtFunc := GoStr → GoStr

/-- Whether a byte is a UTF-8 continuation byte (0x80..0xBF). -/
def isCont (b : Nat) : Bool := 128 ≤ b && b ≤ 191

/-- Accepted range for the second byte of a UTF-8 sequence, given the first
byte, following Go's `unicode/utf8` accept ranges. -/
def accSecond (b0 b1 : Nat) : Bool :=
  if b0 = 224 then 160 ≤ b1 && b1 ≤ 191
  else if b0 = 237 then 128 ≤ b1 && b1 ≤ 159
  else if b0 = 240 then 144 ≤ b1 && b1 ≤ 191
  else if b0 = 244 then 128 ≤ b1 && b1 ≤ 143
  else isCont b1

/-- Number of bytes consumed by decoding the first rune of `s`, exactly as
Go's `utf8.DecodeRune`: 1 for ASCII and for every invalid byte, otherwise
the length of the valid multi-byte sequence. -/
def runeSize : GoStr → Nat
  | [] => 0
  | b0 :: rest =>
    if b0 < 128 then 1
    else if 194 ≤ b0 && b0 ≤ 223 then
      match rest with
      | b1 :: _ => if accSecond b0 b1 then 2 else 1
      | [] => 1
    else if 224 ≤ b0 && b0 ≤ 239 then
      match rest with
      | b1 :: b2 :: _ => if accSecond b0 b1 && isCont b2 then 3 else 1
      | _ => 1
    else if 240 ≤ b0 && b0 ≤ 244 then
      match rest with
      | b1 :: b2 :: b3 :: _ =>
        if accSecond b0 b1 && isCont b2 && isCont b3 then 4 else 1
      | _ => 1
    else 1

/-- Fuel-driven rune counter (fuel makes the recursion structural, so the
kernel can evaluate it; `s.length` fuel is always enough). -/
def runeLenAux : Nat → GoStr → Nat
  | 0, _ => 0
  | _ + 1, [] => 0
  | fuel + 1, b :: rest =>
    1 + runeLenAux fuel ((b :: rest).drop (runeSize (b :: rest)))

/-- Go's `len([]rune(s))`: the number of runes obtained by UTF-8 decoding
`s`, each invalid byte counting as one error rune. -/
def runeLen (s : GoStr) : Nat := runeLenAux s.length s

/-- Fuel-driven helper taking the first `n` runes of a byte string. -/
def utf8TakeAux : Nat → Nat → GoStr → GoStr
  | 0, _, _ => []
  | _ + 1, 0, _ => []
  | _ + 1, _ + 1, [] => []
  | fuel + 1, n + 1, b :: rest =>
    (b :: rest).take (runeSize (b :: rest)) ++
      utf8TakeAux fuel n ((b :: rest).drop (runeSize (b :: rest)))

/-- Bytes of the first `n` runes (code points) of `s`. -/
def utf8Take (n : Nat) (s : GoStr) : GoStr := utf8TakeAux s.length n s

/-- Fuel-driven decimal digit writer. -/
def natToDecAux : Nat → Nat → GoStr
  | 0, _ => []
  | fuel + 1, n =>
    if n < 10 then [48 + n] else natToDecAux fuel (n / 10) ++ [48 + n % 10]

/-- Decimal byte representation of a natural number
(`strconv.Itoa` / `strconv.FormatUint` on nonnegative input). -/
def natToDec (n : Nat) : GoStr := natToDecAux (n + 1) n

/-- Decimal byte representation of an integer (`strconv.Itoa`,
`strconv.FormatInt`). -/
def intToDec (i : Int) : GoStr :=
  if i < 0 then 45 :: natToDec i.natAbs else natToDec i.natAbs

/-- The `p` fractional digits of `n` (interpreted as a value scaled by
`10 ^ p`), most significant first. -/
def fracDigits (n p : Nat) : GoStr :=
  (List.range p).map (fun i => 48 + n / 10 ^ (p - 1 - i) % 10)

/-- Round `scaled / den` to the nearest integer, ties to even. -/
def roundHalfEven (scaled den : Nat) : Nat :=
  let q := scaled / den
  let r := scaled % den
  if den < 2 * r then q + 1
  else if 2 * r < den then q
  else if q % 2 = 0 then q else q + 1

/-- Fixed-point rendering of the rational `num / den` with exactly `p`
fractional digits and round-half-to-even, modelling
`strconv.FormatFloat(v, 'f', p, bitSize)` on the exact value `num / den`. -/
def formatRat (num : Int) (den : Nat) (p : Nat) : GoStr :=
  (if num < 0 then [45] else []) ++
    (if p = 0 then natToDec (roundHalfEven (num.natAbs * 10 ^ p) den)
     else natToDec (roundHalfEven (num.natAbs * 10 ^ p) den / 10 ^ p) ++ [46] ++
       fracDigits (roundHalfEven (num.natAbs * 10 ^ p) den) p)

/-- Fuel-driven search for the smallest fractional digit count `d` (counting
up from `d`) at which `a / den` is exactly a multiple of `10 ^ (-d)`. -/
def shortestFracLenAux (a den : Nat) : Nat → Nat → Nat
  | 0, d => d
  | fuel + 1, d =>
    if (a * 10 ^ d) % den = 0 then d else shortestFracLenAux a den fuel (d + 1)

/-- Smallest fractional digit count rendering `a / den` exactly (the decimal
expansion of every value representable in a binary float terminates, so the
fuel covers all modelled float values). -/
def shortestFracLen (a den : Nat) : Nat := shortestFracLenAux a den 1100 0

/-- The behaviour of `strconv.FormatFloat(v, 'f', prec, bitSize)` on the
exact rational `num / den`: strconv treats every negative precision as
shortest formatting (`shortest := prec < 0` in ftoa), modelled as the
smallest exact fractional digit count; a nonnegative precision is
fixed-point rendering with exactly that many fractional digits. -/
def formatFloatGo (num : Int) (den : Nat) (p : Int) : GoStr :=
  if p < 0 then formatRat num den (shortestFracLen num.natAbs den)
  else formatRat num den p.toNat

/-- Length of the byte run after the last `'.'` (byte 46) of `s`; measures
how many fractional digits a fixed-point rendering carries. -/
def afterDotLen (s : GoStr) : Nat :=
  (s.reverse.takeWhile (fun b => b != 46)).length

/-- Heterogeneous values accepted by `Table.Row`. Pointers carry an
`Option` pointee (`none` is a nil pointer); floats carry their exact
rational value as numerator and denominator; `vOther` carries the bytes of
the `fmt.Sprintf("%v", v)` fallback rendering of an unrecognized value. -/
inductive GoValue where
  | vInt32 (n : Int)
  | vInt64 (n : Int)
  | vUInt64 (n : Nat)
  | vFloat32 (num : Int) (den : Nat)
  | vFloat64 (num : Int) (den : Nat)
  | vInt (n : Int)
  | vUInt32 (n : Nat)
  | vPtrBytes (p : Option GoStr)
  | vPtrString (p : Option GoStr)
  | vNil
  | vBool (b : Bool)
  | vString (s : GoStr)
  | vOther (r : GoStr)

open GoValue

/-- Stringification of one cell value by `Table.Row` (the `switch` on lines
183-218 of `table.go`), given the stored precision of the cell's column (a
Go `int`, so it may be negative). `p == 0` is replaced by 2 first, exactly
as the source does; any other value, including a negative one, is passed
through to `FormatFloat`. Returns `none` when the source panics (nil
`*[]byte` / `*string` dereference). -/
def cellString (storedP : Int) (v : GoValue) : Option GoStr :=
  let p := if storedP = 0 then 2 else storedP
  match v with
  | vInt32 n => some (intToDec n)
  | vInt64 n => some (intToDec n)
  | vUInt64 n => some (natToDec n)
  | vFloat32 num den => some (formatFloatGo num den p)
  | vFloat64 num den => some (formatFloatGo num den p)
  | vInt n => some (intToDec n)
  | vUInt32 n => some (natToDec n)
  | vPtrBytes o => o
  | vPtrString o => o
  | vNil => some []
  | vBool b => some (if b then [121, 101, 115] else [])
  | vString s => some s
  | vOther r => some r

/-- The `Table` record from the source. `formatRow` is `map[int]FormatFunc`
and `formatNotZero` is `map[int]FormatFunc`, modelled as lookup functions;
`format` is the `[]FormatFunc` slice whose entries may be nil. -/
structure Table where
  columns : Nat
  headers : List GoStr
  rows : List (List GoStr)
  widths : List Nat
  maxWidths : List Nat
  precision : List Int
  padding : Nat
  format : List (Option FmtFunc)
  formatHeader : Option FmtFunc
  formatRow : Int → Option FmtFunc
  formatNotZero : Nat → Option FmtFunc
  sortBy : List Nat

/-- The `New` constructor (the process-wide default header format is the
excluded global state; a fresh table with no default has no header format). -/
def Table.New (headers : List GoStr) : Table where
  columns := headers.length
  headers := headers
  rows := []
  widths := headers.map runeLen
  maxWidths := List.replicate headers.length 0
  precision := List.replicate headers.length 0
  padding := 2
  format := List.replicate headers.length none
  formatHeader := none
  formatRow := fun _ => none
  formatNotZero := fun _ => none
  sortBy := []

/-- The `MaxWidth` setter: stores `chars` for every listed in-range column. -/
def Table.MaxWidth (t : Table) (chars : Nat) (cols : List Nat) : Table :=
  cols.foldl
    (fun t2 c =>
      if c < t2.columns then { t2 with maxWidths := t2.maxWidths.set c chars }
      else t2) t

/-- The `Precision` setter: stores the given digit count, with no check on
its value (a negative count is stored unchanged), for every listed in-range
column. -/
def Table.Precision (t : Table) (digits : Int) (cols : List Nat) : Table :=
  cols.foldl
    (fun t2 c =>
      if c < t2.columns then { t2 with precision := t2.precision.set c digits }
      else t2) t

/-- The `Padding` setter. -/
def Table.Padding (t : Table) (p : Nat) : Table := { t with padding := p }

/-- The `FormatHeader` setter. -/
def Table.FormatHeader (t : Table) (fn : FmtFunc) : Table :=
  { t with formatHeader := some fn }

/-- The `FormatCols` setter. -/
def Table.FormatCols (t : Table) (fn : FmtFunc) (cols : List Nat) : Table :=
  cols.foldl
    (fun t2 c =>
      if c < t2.columns then { t2 with format := t2.format.set c (some fn) }
      else t2) t

/-- The `FormatRows` setter; index `-1` is resolved to the current last row
index at call time, as in the source. -/
def Table.FormatRows (t : Table) (fn : FmtFunc) (rws : List Int) : Table :=
  rws.foldl
    (fun t2 r =>
      let r2 : Int := if r = -1 then (t2.rows.length : Int) - 1 else r
      { t2 with formatRow := fun k => if k = r2 then some fn else t2.formatRow k }) t

/-- The `FormatNotZero` setter. -/
def Table.FormatNotZero (t : Table) (fn : FmtFunc) (cols : List Nat) : Table :=
  cols.foldl
    (fun t2 c =>
      if c < t2.columns then
        { t2 with formatNotZero := fun k => if k = c then some fn else t2.formatNotZero k }
      else t2) t

/-- Stringify the (already overflow-truncated) value list of one `Row` call,
threading the running column index for precision lookup; `none` when some
cell stringification panics. -/
def buildRow (prec : List Int) : List GoValue → Nat → Option (List GoStr)
  | [], _ => some []
  | v :: vs, i =>
    match cellString (prec.getD i 0) v, buildRow prec vs (i + 1) with
    | some s, some rest => some (s :: rest)
    | _, _ => none

/-- Per-cell width tracking of `Row`: each tracked width grows to the rune
length of the new cell when that is larger. -/
def updWidths : List Nat → List GoStr → List Nat
  | ws, [] => ws
  | [], _ => []
  | w :: ws, s :: ss =>
    (if w < runeLen s then runeLen s else w) :: updWidths ws ss

/-- The `Row` method: overflowing values are dropped, the rest are
stringified, widths are tracked, and the rendered row is appended.
`none` models the nil-pointer panic inside the stringification switch. -/
def Table.Row (t : Table) (values : List GoValue) : Option Table :=
  match buildRow t.precision (values.take t.columns) 0 with
  | none => none
  | some row =>
    some { t with rows := t.rows ++ [row], widths := updWidths t.widths row }

/-- Convenience: `Row` with the panic case defaulted away, for building
concrete tables whose `Row` calls provably succeed. -/
def rowD (t : Table) (values : List GoValue) : Table :=
  (Table.Row t values).getD t

/-- Byte-wise three-way string comparison (`strings.Compare`). -/
def strCompare : GoStr → GoStr → Int
  | [], [] => 0
  | [], _ :: _ => -1
  | _ :: _, [] => 1
  | a :: as, b :: bs =>
    if a < b then -1 else if b < a then 1 else strCompare as bs

/-- The comparison loop of `Table.Less`: walk the sort keys, remember the
first non-zero comparison of the two rows' cells, 0 if all compare equal. -/
def lessAux (ks : List Nat) (r1 r2 : List GoStr) : Int :=
  match ks with
  | [] => 0
  | k :: ks2 =>
    let c := strCompare (r1.getD k []) (r2.getD k [])
    if c = 0 then lessAux ks2 r1 r2 else c

/-- Row-level comparator used by the sort: true when the first differing
listed column compares less. -/
def rowLessB (ks : List Nat) (r1 r2 : List GoStr) : Bool :=
  decide (lessAux ks r1 r2 < 0)

/-- The `Less` method of the `sort.Interface` implementation. -/
def Table.Less (t : Table) (i j : Nat) : Bool :=
  rowLessB t.sortBy (t.rows.getD i []) (t.rows.getD j [])

/-- Insert a row into an already sorted list of rows. -/
def sortInsert (le : List GoStr → List GoStr → Bool) (r : List GoStr) :
    List (List GoStr) → List (List GoStr)
  | [] => [r]
  | x :: xs => if le r x then r :: x :: xs else x :: sortInsert le r xs

/-- Comparison sort of the rows (models the standard library `sort.Sort`
call, which promises a reorder that is sorted under `Less`). -/
def sortRows (le : List GoStr → List GoStr → Bool) :
    List (List GoStr) → List (List GoStr)
  | [] => []
  | r :: rest => sortInsert le r (sortRows le rest)

/-- The `Sort` method: store the sort keys, then reorder the rows with the
table's comparator. -/
def Table.Sort (t : Table) (cols : List Nat) : Table :=
  { t with sortBy := cols, rows := sortRows (rowLessB cols) t.rows }

/-- Go slice expression `s[:k]` with an `int` bound: `none` (panic) when the
bound is negative or beyond the byte length. -/
def goSliceTo (s : GoStr) (k : Int) : Option GoStr :=
  if 0 ≤ k ∧ k ≤ (s.length : Int) then some (s.take k.toNat) else none

/-- The render-time truncation step of `Print` (applied both to headers and
to row cells): content whose rune length exceeds a positive max width `m` is
byte-sliced to `m - 3` bytes and `"..."` is appended; `none` models the
slice-bound panic when `m - 3` is negative. -/
def truncCell (m : Nat) (s : GoStr) : Option GoStr :=
  if 0 < m ∧ m < runeLen s then
    match goSliceTo s ((m : Int) - 3) with
    | some s2 => some (s2 ++ [46, 46, 46])
    | none => none
  else some s

/-- Apply an optional format function. -/
def applyFmt (f : Option FmtFunc) (s : GoStr) : GoStr :=
  match f with
  | some g => g s
  | none => s

/-- Fallback of the style switch after the not-zero case: per-row style,
else per-column style, else none. -/
def pickStyle2 (rw cl : Option FmtFunc) (r : GoStr) : GoStr :=
  match rw with
  | some g => g r
  | none => applyFmt cl r

/-- The style-selection `switch` of `Print` (lines 270-277): not-zero style
when configured and the cell text is not `"0"`, else per-row style, else
per-column style, else the cell text unchanged. -/
def pickStyle (nz rw cl : Option FmtFunc) (r : GoStr) : GoStr :=
  match nz with
  | some f => if r = [48] then pickStyle2 rw cl r else f r
  | none => pickStyle2 rw cl r

/-- Trailing whitespace for one cell: `widths[i] + padding` minus the rune
length of the (pre-style) cell text, no spaces when that is negative
(`appendWhitespace` loops zero times on a negative count). -/
def padOf (width padding : Nat) (s : GoStr) : GoStr :=
  List.replicate (((width : Int) + padding - runeLen s).toNat) 32

/-- Render one line of cells starting at column index `i`: truncate, style,
and pad each cell (the last column of the table is never padded). -/
def renderCells (widths maxWidths : List Nat) (padding cols : Nat)
    (style : Nat → GoStr → GoStr) : List GoStr → Nat → Option GoStr
  | [], _ => some []
  | s :: rest, i =>
    match truncCell (maxWidths.getD i 0) s with
    | none => none
    | some s2 =>
      match renderCells widths maxWidths padding cols style rest (i + 1) with
      | none => none
      | some restOut =>
        some ((style i s2 ++
          if i + 1 = cols then [] else padOf (widths.getD i 0) padding s2) ++ restOut)

/-- Render all rows (each line newline-terminated), threading the row index
for the per-row style lookup. -/
def renderRows (t : Table) : List (List GoStr) → Nat → Option GoStr
  | [], _ => some []
  | row :: rest, j =>
    match renderCells t.widths t.maxWidths t.padding t.columns
        (fun i r => pickStyle (t.formatNotZero i) (t.formatRow (j : Int))
          (t.format.getD i none) r) row 0 with
    | none => none
    | some line =>
      match renderRows t rest (j + 1) with
      | none => none
      | some restOut => some (line ++ [10] ++ restOut)

/-- The width-clamping loop at the top of `Print` (lines 238-242): a tracked
width above a positive configured max width is overwritten by that max. -/
def clampW (ws ms : List Nat) : List Nat :=
  List.zipWith (fun w m => if 0 < m ∧ m < w then m else w) ws ms

/-- The table state after the clamping loop of `Print`; note the loop writes
back into `t.widths`, so this is the state `Print` leaves behind. -/
def Table.clamped (t : Table) : Table :=
  { t with widths := clampW t.widths t.maxWidths }

/-- Render the header line and all row lines of an (already clamped) table. -/
def renderAll (t : Table) : Option GoStr :=
  match renderCells t.widths t.maxWidths t.padding t.columns
      (fun _ h => applyFmt t.formatHeader h) t.headers 0 with
  | none => none
  | some hdr =>
    match renderRows t t.rows 0 with
    | none => none
    | some body => some (hdr ++ [10] ++ body)

/-- The `Print` method: clamp the tracked widths in place, then write the
header line and the row lines. Returns the bytes written to the sink and the
table state after the call; `none` models an out-of-range slice panic during
truncation. -/
def Table.Print (t : Table) : Option (GoStr × Table) :=
  match renderAll (Table.clamped t) with
  | none => none
  | some o => some (o, Table.clamped t)

/-- Decidable form of the row-length invariant: every stored row has at most
`columns` cells. -/
def rowsOkB (t : Table) : Bool :=
  t.rows.all (fun r => decide (r.length ≤ t.columns))

/-- Lexicographic strict order on equal-length key lists, written from the
spec's words: the first key pair with a non-equal ordinal comparison decides
the order (spec refinement reference for the `Less` comparator). -/
def specLexLt : List GoStr → List GoStr → Bool
  | [], _ => false
  | _ :: _, [] => false
  | a :: as, b :: bs =>
    if strCompare a b < 0 then true
    else if strCompare a b = 0 then specLexLt as bs
    else false

/-! ## Auxiliary lemmas about the embedding -/

/-- Decoding the first rune of a nonempty byte string consumes at least one
byte. -/
lemma runeSize_pos (b : Nat) (rest : GoStr) : 0 < runeSize (b :: rest) := by
  unfold runeSize
  repeat' split
  all_goals first | contradiction | omega

/-- An ASCII first byte is a one-byte rune. -/
lemma runeSize_ascii {b : Nat} (rest : GoStr) (h : b < 128) :
    runeSize (b :: rest) = 1 := by
  simp [runeSize, h]

/-- The fuel-driven rune counter never counts more runes than bytes. -/
lemma runeLenAux_le (fuel : Nat) : ∀ s : GoStr, runeLenAux fuel s ≤ s.length := by
  induction fuel with
  | zero => intro s; simp [runeLenAux]
  | succ f ih =>
    intro s
    cases s with
    | nil => simp [runeLenAux]
    | cons b rest =>
      have h1 : 0 < runeSize (b :: rest) := runeSize_pos b rest
      have h2 := ih ((b :: rest).drop (runeSize (b :: rest)))
      have h3 : ((b :: rest).drop (runeSize (b :: rest))).length
          = (b :: rest).length - runeSize (b :: rest) := List.length_drop _ _
      simp only [runeLenAux, List.length_cons] at *
      omega

/-- A byte string has at most as many runes as bytes. -/
lemma runeLen_le_length (s : GoStr) : runeLen s ≤ s.length :=
  runeLenAux_le s.length s

/-- On ASCII byte strings the rune counter is the byte count, for any
sufficient fuel. -/
lemma runeLenAux_ascii (fuel : Nat) : ∀ s : GoStr, s.length ≤ fuel →
    (∀ b ∈ s, b < 128) → runeLenAux fuel s = s.length := by
  induction fuel with
  | zero =>
    intro s hs _
    cases s with
    | nil => simp [runeLenAux]
    | cons b rest => simp at hs
  | succ f ih =>
    intro s hs ha
    cases s with
    | nil => simp [runeLenAux]
    | cons b rest =>
      have hb : b < 128 := ha b (by simp)
      have hrest : ∀ x ∈ rest, x < 128 := fun x hx => ha x (by simp [hx])
      have hlen : rest.length ≤ f := by simp at hs; omega
      simp only [runeLenAux, runeSize_ascii rest hb, List.drop_succ_cons,
        List.drop_zero, ih rest hlen hrest, List.length_cons]
      omega

/-- Go's rune length of an ASCII byte string is its byte length. -/
lemma runeLen_ascii (s : GoStr) (h : ∀ b ∈ s, b < 128) :
    runeLen s = s.length :=
  runeLenAux_ascii s.length s le_rfl h

/-- On ASCII byte strings, taking runes is taking bytes. -/
lemma utf8TakeAux_ascii (fuel : Nat) : ∀ (n : Nat) (s : GoStr),
    s.length ≤ fuel → (∀ b ∈ s, b < 128) → utf8TakeAux fuel n s = s.take n := by
  induction fuel with
  | zero =>
    intro n s hs _
    cases s with
    | nil => simp [utf8TakeAux]
    | cons b rest => simp at hs
  | succ f ih =>
    intro n s hs ha
    cases n with
    | zero => cases s <;> simp [utf8TakeAux]
    | succ m =>
      cases s with
      | nil => simp [utf8TakeAux]
      | cons b rest =>
        have hb : b < 128 := ha b (by simp)
        have hrest : ∀ x ∈ rest, x < 128 := fun x hx => ha x (by simp [hx])
        have hlen : rest.length ≤ f := by simp at hs; omega
        simp only [utf8TakeAux, runeSize_ascii rest hb, List.drop_succ_cons,
          List.drop_zero, List.take_succ_cons, List.take_zero,
          ih m rest hlen hrest]
        simp

/-- On ASCII byte strings, the first `n` code points are the first `n`
bytes. -/
lemma utf8Take_ascii (n : Nat) (s : GoStr) (h : ∀ b ∈ s, b < 128) :
    utf8Take n s = s.take n :=
  utf8TakeAux_ascii s.length n s le_rfl h

/-- Taking bytes until a marker byte recovers exactly the marker-free part
to its left. -/
lemma takeWhile_until_dot (l r : GoStr) (h : ∀ b ∈ l, b ≠ 46) :
    (l ++ 46 :: r).takeWhile (fun b => b != 46) = l := by
  induction l with
  | nil => simp [List.takeWhile_cons]
  | cons a as ih =>
    have ha : a ≠ 46 := h a (by simp)
    simp [List.takeWhile_cons, ha, ih (fun b hb => h b (by simp [hb]))]

/-- A fractional-digit block has the requested number of digits. -/
lemma length_fracDigits (n p : Nat) : (fracDigits n p).length = p := by
  simp [fracDigits]

/-- Fractional digits are digit bytes, never the dot byte. -/
lemma mem_fracDigits_ne_dot {b n p : Nat} (h : b ∈ fracDigits n p) : b ≠ 46 := by
  simp only [fracDigits, List.mem_map, List.mem_range] at h
  obtain ⟨i, _, rfl⟩ := h
  omega

/-- With a nonzero requested precision, the fixed-point rendering carries
exactly `p` bytes after its last dot. -/
lemma afterDotLen_formatRat (num : Int) (den p : Nat) (hp : p ≠ 0) :
    afterDotLen (formatRat num den p) = p := by
  unfold formatRat afterDotLen
  rw [if_neg hp]
  have hshape :
      (if num < 0 then ([45] : GoStr) else []) ++
        (natToDec (roundHalfEven (num.natAbs * 10 ^ p) den / 10 ^ p) ++ [46] ++
          fracDigits (roundHalfEven (num.natAbs * 10 ^ p) den) p)
      = ((if num < 0 then ([45] : GoStr) else []) ++
          natToDec (roundHalfEven (num.natAbs * 10 ^ p) den / 10 ^ p)) ++
          46 :: fracDigits (roundHalfEven (num.natAbs * 10 ^ p) den) p := by
    simp
  rw [hshape, List.reverse_append]
  have hrev : (46 :: fracDigits (roundHalfEven (num.natAbs * 10 ^ p) den) p).reverse
      = (fracDigits (roundHalfEven (num.natAbs * 10 ^ p) den) p).reverse ++ [46] := by
    simp
  rw [hrev, List.append_assoc, List.cons_append, List.nil_append,
    takeWhile_until_dot _ _
      (fun b hb => mem_fracDigits_ne_dot (List.mem_reverse.mp hb))]
  simp [length_fracDigits]

/-- Clamping tracked widths to the configured max widths is idempotent. -/
lemma clampW_idem (ws : List Nat) : ∀ ms : List Nat,
    clampW (clampW ws ms) ms = clampW ws ms := by
  induction ws with
  | nil => intro ms; simp [clampW]
  | cons w ws2 ih =>
    intro ms
    cases ms with
    | nil => simp [clampW]
    | cons m ms2 =>
      simp only [clampW, List.zipWith_cons_cons] at *
      congr 1
      · split_ifs <;> omega
      · exact ih ms2

/-- Running the clamping loop of `Print` twice is the same as running it
once. -/
lemma clamped_clamped (t : Table) :
    Table.clamped (Table.clamped t) = Table.clamped t := by
  simp [Table.clamped, clampW_idem]

/-- Inversion of a successful `Print` call: the rendering of the clamped
state produced the output, and the returned state is the clamped state. -/
lemma print_eq (t : Table) (o : GoStr) (t2 : Table)
    (h : Table.Print t = some (o, t2)) :
    renderAll (Table.clamped t) = some o ∧ t2 = Table.clamped t := by
  unfold Table.Print at h
  cases hr : renderAll (Table.clamped t) with
  | none => rw [hr] at h; simp at h
  | some o2 =>
    rw [hr] at h
    simp only [Option.some.injEq, Prod.mk.injEq] at h
    exact ⟨by rw [h.1], h.2.symm⟩

/-- A successfully built row has one cell per (kept) input value. -/
lemma buildRow_length : ∀ (vs : List GoValue) (i : Nat) (prec : List Int)
    (row : List GoStr), buildRow prec vs i = some row → row.length = vs.length := by
  intro vs
  induction vs with
  | nil =>
    intro i prec row h
    simp only [buildRow, Option.some.injEq] at h
    subst h
    rfl
  | cons v vs2 ih =>
    intro i prec row h
    simp only [buildRow] at h
    cases hc : cellString (prec.getD i 0) v with
    | none => rw [hc] at h; simp at h
    | some s =>
      cases hb : buildRow prec vs2 (i + 1) with
      | none => rw [hc, hb] at h; simp at h
      | some rest =>
        rw [hc, hb] at h
        simp only [Option.some.injEq] at h
        subst h
        simp [ih (i + 1) prec rest hb]

/-- Inserting into a sorted row list adds no new rows. -/
lemma mem_sortInsert (le : List GoStr → List GoStr → Bool)
    (r x : List GoStr) : ∀ l : List (List GoStr),
    x ∈ sortInsert le r l → x = r ∨ x ∈ l := by
  intro l
  induction l with
  | nil => simp [sortInsert]
  | cons y ys ih =>
    simp only [sortInsert]
    split
    · intro h
      simpa using h
    · intro h
      rcases List.mem_cons.mp h with h1 | h2
      · exact Or.inr (by simp [h1])
      · rcases ih h2 with h3 | h4
        · exact Or.inl h3
        · exact Or.inr (by simp [h4])

/-- The sorted row list is drawn from the original rows. -/
lemma mem_sortRows (le : List GoStr → List GoStr → Bool) (x : List GoStr) :
    ∀ rows : List (List GoStr), x ∈ sortRows le rows → x ∈ rows := by
  intro rows
  induction rows with
  | nil => simp [sortRows]
  | cons r rest ih =>
    intro h
    rcases mem_sortInsert le r x (sortRows le rest) h with h1 | h2
    · simp [h1]
    · simp [ih h2]

/-! ## Concrete tables used by the claims -/

/-- Header of five copies of the two-byte rune `é` (U+00E9, bytes 195 169). -/
def hdrC1 : GoStr := [195, 169, 195, 169, 195, 169, 195, 169, 195, 169]

/-- One-column table whose header has rune length 5, capped at max width 4. -/
def tC1 : Table := Table.MaxWidth (Table.New [hdrC1]) 4 [0]

/-- One-column table with header `hello` (tracked width 5), capped at 3. -/
def tC2 : Table := Table.MaxWidth (Table.New [[104, 101, 108, 108, 111]]) 3 [0]

/-- A fresh two-column `k`/`v` table. -/
def tKV : Table := Table.New [[107], [118]]

/-- A one-column, one-row table with no max width configured. -/
def tW4 : Table := rowD (Table.New [[107]]) [vInt 7]

/-- The bytes `Print` writes for `tW4`. -/
def oW4 : GoStr := ((Table.Print tW4).getD ([], tW4)).1

/-- The table state `Print` leaves behind for `tW4`. -/
def tW4r : Table := ((Table.Print tW4).getD ([], tW4)).2

/-- The bytes `Print` writes for `tC2`. -/
def oC2 : GoStr := ((Table.Print tC2).getD ([], tC2)).1

/-- The table state `Print` leaves behind for `tC2`. -/
def tC2r : Table := ((Table.Print tC2).getD ([], tC2)).2

/-- Rows with stringified keys `b 2`, `a 1`, `c 3`, inserted in that order. -/
def tC5 : Table :=
  rowD (rowD (rowD tKV [vString [98], vString [50]])
    [vString [97], vString [49]]) [vString [99], vString [51]]

/-- Column style marker: prepend byte 67. -/
def fcC6 : FmtFunc := fun s => 67 :: s

/-- Not-zero style marker: prepend byte 90. -/
def fzC6 : FmtFunc := fun s => 90 :: s

/-- Row style marker: prepend byte 82. -/
def frC6 : FmtFunc := fun s => 82 :: s

/-- One-column table with a column style, a not-zero style, rows `5` and
`0`, and a row style on both rows. -/
def tC6 : Table :=
  Table.FormatRows
    (rowD (rowD (Table.FormatNotZero (Table.FormatCols (Table.New [[104]]) fcC6 [0])
      fzC6 [0]) [vString [53]]) [vString [48]]) frC6 [0, 1]

/-- Result of appending a three-value row to the two-column table. -/
def tC8r : Table := (Table.Row tKV [vInt 1, vInt 2, vInt 3]).getD tKV

/-- Header `abcd` (rune length 4) capped at max width 1. -/
def tC9a : Table := Table.MaxWidth (Table.New [[97, 98, 99, 100]]) 1 [0]

/-- Header `a` capped at max width 2, with a row cell `abcd` of length 4. -/
def tC9b : Table :=
  rowD (Table.MaxWidth (Table.New [[97]]) 2 [0]) [vString [97, 98, 99, 100]]

/-- The table of the repository's `Example` test before sorting. -/
def exampleTable : Table :=
  rowD (rowD (rowD
    (Table.Precision (Table.New [[107, 101, 121], [118, 97, 108, 117, 101]]) 2 [1])
    [vString [97], vInt 1]) [vString [98], vFloat64 2 1]) [vString [99], vFloat64 1 1000]

/-- Validation of the embedding: the modelled pipeline (construction,
precision, rows with int and float values, sort by column 1, print)
reproduces byte for byte the golden output documented in the repository's
`Example` test. -/
theorem model_matches_repo_example :
    (Table.Print (Table.Sort exampleTable [1])).map Prod.fst =
      some ([107, 101, 121, 32, 32, 118, 97, 108, 117, 101, 10] ++
        [99, 32, 32, 32, 32, 48, 46, 48, 48, 10] ++
        [97, 32, 32, 32, 32, 49, 10] ++
        [98, 32, 32, 32, 32, 50, 46, 48, 48, 10]) := by decide

/-! ## The claims -/

/-- C1, counterexample: with max width 4 and the five-rune header `ééééé`,
`Print` renders the header cell as the first single byte of the original
(half of the first code point, invalid UTF-8) plus `...`, not as
`(max-3) = 1` original code point plus `...` as the claim states: the
truncation slices bytes, not code points. -/
theorem c1_truncation_counterexample :
    (Table.Print tC1).map Prod.fst = some [195, 46, 46, 46, 10] ∧
    utf8Take 1 hdrC1 ++ [46, 46, 46] = [195, 169, 46, 46, 46] ∧
    ¬ ((Table.Print tC1).map Prod.fst
        = some (utf8Take 1 hdrC1 ++ [46, 46, 46] ++ [10])) := by
  refine ⟨by decide, by decide, by decide⟩

/-- C1, amended: for a positive max width of at least 3 and content made of
single-byte code points (ASCII) whose code-point length exceeds the max,
the truncation step of `Print` renders exactly the first `(max-3)` bytes of
the original followed by the three-byte ellipsis marker; those bytes are
exactly the first `(max-3)` original code points, and the truncated text's
code-point length equals the max width. (For multi-byte content the slice
is by bytes, and for max widths 1 and 2 the slice bound is negative and
`Print` panics.) -/
theorem c1_truncation_amended (m : Nat) (s : GoStr) (h3 : 3 ≤ m)
    (hm : m < runeLen s) (ha : ∀ b ∈ s, b < 128) :
    truncCell m s = some (s.take (m - 3) ++ [46, 46, 46]) ∧
    s.take (m - 3) = utf8Take (m - 3) s ∧
    runeLen (s.take (m - 3) ++ [46, 46, 46]) = m := by
  have hlen : runeLen s = s.length := runeLen_ascii s ha
  have hcond : 0 ≤ (m : Int) - 3 ∧ (m : Int) - 3 ≤ (s.length : Int) := by omega
  have htn : ((m : Int) - 3).toNat = m - 3 := by omega
  have htake : ∀ b ∈ s.take (m - 3), b < 128 :=
    fun b hb => ha b (List.mem_of_mem_take hb)
  have hdots : ∀ b ∈ s.take (m - 3) ++ [46, 46, 46], b < 128 := by
    intro b hb
    rcases List.mem_append.mp hb with h | h
    · exact htake b h
    · simp at h; omega
  refine ⟨?_, ?_, ?_⟩
  · unfold truncCell goSliceTo
    rw [if_pos ⟨by omega, hm⟩, if_pos hcond, htn]
  · rw [utf8Take_ascii _ _ ha]
  · rw [runeLen_ascii _ hdots]
    simp only [List.length_append, List.length_take, List.length_cons,
      List.length_nil]
    omega

/-- C1, witness for the amended claim: max width 5 on the six-byte ASCII
string `abcdef` keeps `ab` and appends `...`, and the result has rune
length 5. -/
theorem c1_truncation_amended_witness :
    truncCell 5 [97, 98, 99, 100, 101, 102] = some [97, 98, 46, 46, 46] ∧
    [97, 98] = utf8Take 2 [97, 98, 99, 100, 101, 102] ∧
    runeLen [97, 98, 46, 46, 46] = 5 :=
  c1_truncation_amended 5 [97, 98, 99, 100, 101, 102]
    (by decide) (by decide) (by decide)

/-- C2, counterexample: `Print` is not a pure read. On a table whose
tracked width 5 exceeds the configured max width 3, the clamping loop at
the start of `Print` writes the cap back into the tracked widths, so after
the call the tracked width is 3, not the 5 it was before. -/
theorem c2_print_mutates_widths_counterexample :
    tC2.widths = [5] ∧
    (Table.Print tC2).map (fun r => r.2.widths) = some [3] ∧
    ¬ ((Table.Print tC2).map (fun r => r.2.widths) = some tC2.widths) := by
  refine ⟨by decide, by decide, by decide⟩

/-- C2, amended: `Print` leaves every table field unchanged except the
tracked widths, which it clamps down to any configured positive max width
they exceed (so rendering can lower the tracked width); when no tracked
width exceeds its positive cap, `Print` changes nothing at all. -/
theorem c2_print_frame (t : Table) (o : GoStr) (t2 : Table)
    (h : Table.Print t = some (o, t2)) :
    t2.columns = t.columns ∧ t2.headers = t.headers ∧ t2.rows = t.rows ∧
    t2.maxWidths = t.maxWidths ∧ t2.precision = t.precision ∧
    t2.padding = t.padding ∧ t2.format = t.format ∧
    t2.formatHeader = t.formatHeader ∧ t2.formatRow = t.formatRow ∧
    t2.formatNotZero = t.formatNotZero ∧ t2.sortBy = t.sortBy ∧
    t2.widths = clampW t.widths t.maxWidths ∧
    (clampW t.widths t.maxWidths = t.widths → t2 = t) := by
  obtain ⟨-, ht⟩ := print_eq t o t2 h
  subst ht
  refine ⟨rfl, rfl, rfl, rfl, rfl, rfl, rfl, rfl, rfl, rfl, rfl, rfl, ?_⟩
  intro hw
  show Table.clamped t = t
  unfold Table.clamped
  rw [hw]

/-- C2, witness for the amended claim at the concrete capped table. -/
theorem c2_print_frame_witness :
    tC2r.rows = tC2.rows ∧ tC2r.widths = clampW tC2.widths tC2.maxWidths := by
  obtain ⟨-, -, h3, -, -, -, -, -, -, -, -, h12, -⟩ :=
    c2_print_frame tC2 oC2 tC2r rfl
  exact ⟨h3, h12⟩

/-- C3, counterexample: `Row` with a nil `*string` or nil `*[]byte` value
dereferences the nil pointer in its type switch and panics; it does not
complete and no row is appended. -/
theorem c3_nil_ptr_counterexample :
    Table.Row tKV [vString [120], vPtrString none] = none ∧
    Table.Row tKV [vString [120], vPtrBytes none] = none :=
  ⟨rfl, rfl⟩

/-- C3, amended: a pointer-to-text or pointer-to-bytes cell value is
dereferenced by `Row`: a non-nil pointer renders as its pointee's text and
the row is appended, while a nil pointer makes `Row` panic instead of
completing. -/
theorem c3_nil_ptr_amended :
    (∀ (p : Int) (o : Option GoStr), cellString p (vPtrString o) = o) ∧
    (∀ (p : Int) (o : Option GoStr), cellString p (vPtrBytes o) = o) ∧
    (Table.Row tKV [vString [120], vPtrString (some [104, 105])]).map Table.rows
      = some [[[120], [104, 105]]] ∧
    (Table.Row tKV [vString [120], vPtrBytes (some [104, 105])]).map Table.rows
      = some [[[120], [104, 105]]] :=
  ⟨fun _ _ => rfl, fun _ _ => rfl, by decide, by decide⟩

/-- C4: `Print` output is deterministic and idempotent. A successful call
returns the produced bytes and the post-call state; calling `Print` again
on that state produces the same bytes and the same state, because the only
mutation (width clamping) is idempotent and rendering reads only the
clamped state. -/
theorem c4_print_idempotent (t : Table) (o : GoStr) (t2 : Table)
    (h : Table.Print t = some (o, t2)) :
    Table.Print t2 = some (o, t2) := by
  obtain ⟨hr, ht⟩ := print_eq t o t2 h
  subst ht
  unfold Table.Print
  rw [clamped_clamped, hr]

/-- C4, witness at a concrete one-column one-row table. -/
theorem c4_print_idempotent_witness : Table.Print tW4r = some (oW4, tW4r) :=
  c4_print_idempotent tW4 oW4 tW4r rfl

/-- C5: the sort comparator is exactly lexicographic comparison over the
listed column indices with ordinal byte-wise string comparison (the first
listed column with a non-equal comparison decides); `"10"` compares before
`"2"`; and sorting the rows with keys `b,2`, `a,1`, `c,3` by column 0
yields the order `a`, `b`, `c`. -/
theorem c5_sort_lexicographic :
    (∀ (ks : List Nat) (r1 r2 : List GoStr),
      rowLessB ks r1 r2
        = specLexLt (ks.map fun k => r1.getD k [])
            (ks.map fun k => r2.getD k [])) ∧
    rowLessB [0] [[49, 48]] [[50]] = true ∧
    (Table.Sort tC5 [0]).rows = [[[97], [49]], [[98], [50]], [[99], [51]]] := by
  refine ⟨?_, by decide, by decide⟩
  intro ks
  induction ks with
  | nil => intro r1 r2; rfl
  | cons k ks2 ih =>
    intro r1 r2
    have ih2 := ih r1 r2
    simp only [rowLessB] at ih2
    simp only [rowLessB, lessAux, specLexLt, List.map_cons]
    split
    · rename_i h0
      simp only [List.getD_eq_getElem?_getD] at h0 ih2
      simp [h0, ih2]
    · rename_i h0
      simp only [List.getD_eq_getElem?_getD] at h0
      simp [h0]

/-- C6: the style selection of `Print` applies at most one style function
per value cell with the fixed precedence: configured not-zero style on a
cell other than `"0"`, else the row's style, else the column's style, else
none; and on a concrete table where all three are configured, a non-zero
cell renders with only the not-zero marker while the `"0"` cell falls
through to the row style. -/
theorem c6_style_precedence :
    (∀ (f : FmtFunc) (rs cl : Option FmtFunc) (r : GoStr),
      pickStyle (some f) rs cl r = if r = [48] then pickStyle none rs cl r else f r) ∧
    (∀ (g : FmtFunc) (cl : Option FmtFunc) (r : GoStr),
      pickStyle none (some g) cl r = g r) ∧
    (∀ (h : FmtFunc) (r : GoStr), pickStyle none none (some h) r = h r) ∧
    (∀ r : GoStr, pickStyle none none none r = r) ∧
    (Table.Print tC6).map Prod.fst = some [104, 10, 90, 53, 10, 82, 48, 10] :=
  ⟨fun _ _ _ _ => rfl, fun _ _ _ => rfl, fun _ _ => rfl, fun _ => rfl, by decide⟩

/-- C7: in a column whose stored precision is positive, a floating value is
rendered by `Row` in fixed-point form with exactly that many fractional
digits (`0.001` at precision 2 renders as `0.00`), while integer values are
rendered as plain decimal digits independent of the precision (`1` renders
as `1`). -/
theorem c7_precision_formatting :
    (∀ (sp : Nat) (num : Int) (den : Nat), sp ≠ 0 →
      cellString sp (vFloat64 num den) = some (formatRat num den sp) ∧
      afterDotLen (formatRat num den sp) = sp) ∧
    cellString 2 (vFloat64 1 1000) = some [48, 46, 48, 48] ∧
    (∀ (sp : Int) (n : Int), cellString sp (vInt n) = some (intToDec n)) ∧
    cellString 2 (vInt 1) = some [49] := by
  refine ⟨?_, by decide, fun sp n => rfl, by decide⟩
  intro sp num den hsp
  have h1 : ((sp : Int)) ≠ 0 := by exact_mod_cast hsp
  have h2 : ¬((sp : Int) < 0) := by omega
  refine ⟨?_, afterDotLen_formatRat num den sp hsp⟩
  simp [cellString, formatFloatGo, h1, h2]

/-- C7, witness: precision 3 on the value 1/8 renders `0.125` with three
fractional digits. -/
theorem c7_precision_formatting_witness :
    cellString 3 (vFloat64 1 8) = some (formatRat 1 8 3) ∧
    afterDotLen (formatRat 1 8 3) = 3 :=
  c7_precision_formatting.1 3 1 8 (by decide)

/-- C8: every stored row has at most `columns` cells: `Row` drops values
beyond the column count without error (the three-value row in the
two-column table stores exactly two cells), and both `Row` and `Sort`
preserve the row-length invariant. -/
theorem c8_row_length_invariant :
    (∀ (t : Table) (vs : List GoValue) (t2 : Table),
      Table.Row t vs = some t2 → rowsOkB t = true → rowsOkB t2 = true) ∧
    (∀ (t : Table) (cols : List Nat),
      rowsOkB t = true → rowsOkB (Table.Sort t cols) = true) ∧
    (Table.Row tKV [vInt 1, vInt 2, vInt 3]).map Table.rows
      = some [[[49], [50]]] := by
  refine ⟨?_, ?_, by decide⟩
  · intro t vs t2 h hok
    unfold Table.Row at h
    cases hb : buildRow t.precision (vs.take t.columns) 0 with
    | none => rw [hb] at h; simp at h
    | some row =>
      rw [hb] at h
      simp only [Option.some.injEq] at h
      subst h
      have hrl : row.length = (vs.take t.columns).length :=
        buildRow_length _ 0 _ row hb
      have hle : row.length ≤ t.columns := by
        rw [hrl, List.length_take]
        omega
      simp only [rowsOkB] at hok ⊢
      rw [List.all_append]
      simp [hok, hle]
  · intro t cols hok
    simp only [rowsOkB, List.all_eq_true, Table.Sort] at hok ⊢
    intro r hr
    exact hok r (mem_sortRows _ r t.rows hr)

/-- C8, witness: the invariant holds after appending the three-value row to
the fresh two-column table. -/
theorem c8_row_length_invariant_witness : rowsOkB tC8r = true :=
  c8_row_length_invariant.1 tKV [vInt 1, vInt 2, vInt 3] tC8r rfl (by decide)

/-- C9: `Print` is not total. With a max width of 1 on a length-4 header,
or a max width of 2 on a length-4 row cell, the truncation step computes
the negative slice bound `max - 3` and `Print` panics (modelled as `none`)
instead of returning. Both states are reachable through `New`, `MaxWidth`
and `Row`. -/
theorem c9_print_panics_on_small_maxwidth :
    Table.Print tC9a = none ∧ Table.Print tC9b = none :=
  ⟨rfl, rfl⟩

/-- C10, counterexample: the claim's impossibility clause fails. The
`Precision` setter stores negative digit counts unchecked, `Row` passes
them through to `FormatFloat` (only 0 is replaced by 2), and strconv treats
any negative precision as shortest formatting, so after `Precision(-1)` on
the value column the float 2.0 is stored as `2` — a floating-point value
rendered with zero fractional digits (no dot at all). -/
theorem c10_shortest_format_counterexample :
    cellString (-1) (vFloat64 2 1) = some [50] ∧
    46 ∉ ([50] : GoStr) ∧
    (Table.Row (Table.Precision tKV (-1) [1])
        [vString [97], vFloat64 2 1]).map Table.rows
      = some [[[97], [50]]] :=
  ⟨by decide, by decide, by decide⟩

/-- C10, amended: a stored column precision of 0 is indistinguishable from
the default: floats are then rendered with 2 fractional digits, identically
to a stored precision of 2, and every nonnegative stored precision `sp`
makes the float path carry `if sp = 0 then 2 else sp` fractional digits —
so precision 0 cannot produce zero fractional digits. Rendering floats with
zero fractional digits is nevertheless possible: a negative stored
precision (stored unchecked by `Precision`) is passed through to
`FormatFloat`, which treats every negative precision as shortest
formatting. -/
theorem c10_precision_zero_amended :
    (∀ (num : Int) (den : Nat),
      cellString 0 (vFloat64 num den) = some (formatRat num den 2)) ∧
    (∀ (num : Int) (den : Nat),
      cellString 0 (vFloat64 num den) = cellString 2 (vFloat64 num den)) ∧
    cellString 0 (vFloat64 1 2) = some [48, 46, 53, 48] ∧
    (∀ (sp : Nat) (num : Int) (den : Nat),
      afterDotLen ((cellString (sp : Int) (vFloat64 num den)).getD [])
        = if sp = 0 then 2 else sp) ∧
    (∀ (sp : Int) (num : Int) (den : Nat), sp < 0 →
      cellString sp (vFloat64 num den)
        = some (formatRat num den (shortestFracLen num.natAbs den))) := by
  refine ⟨fun _ _ => rfl, fun _ _ => rfl, by decide, ?_, ?_⟩
  · intro sp num den
    by_cases h : sp = 0
    · subst h
      exact afterDotLen_formatRat num den 2 (by omega)
    · have h1 : ((sp : Int)) ≠ 0 := by exact_mod_cast h
      have h2 : ¬((sp : Int) < 0) := by omega
      have hcs : cellString (sp : Int) (vFloat64 num den)
          = some (formatRat num den sp) := by
        simp [cellString, formatFloatGo, h1, h2]
      rw [hcs, Option.getD_some, if_neg h]
      exact afterDotLen_formatRat num den sp h
  · intro sp num den hneg
    have h0 : sp ≠ 0 := by omega
    simp [cellString, formatFloatGo, h0, hneg]

/-- C10, witness for the amended claim: the negative stored precision -3 on
the value 5/4 takes the shortest-formatting path. -/
theorem c10_precision_zero_amended_witness :
    cellString (-3) (vFloat64 5 4) = some (formatRat 5 4 (shortestFracLen 5 4)) :=
  c10_precision_zero_amended.2.2.2.2 (-3) 5 4 (by decide)
